import Mathlib

/-!
Verification of the cache-aside engine of `ioredis-cache` (`src/Cache.ts`).

Shallow embedding conventions:
* The redis string keyspace is a function `Store := String → Option Entry`,
  where an `Entry` holds the raw stored text and an optional ttl (seconds).
  `none` means the key is absent.  A hash key's field space is
  `HStore := String → String → Option String` (hash fields carry no ttl).
* The pluggable parser (`parser.parse` / `parser.stringify`) is passed as
  explicit function arguments `parse : String → V` and `stringify : V → String`.
* `NOT_FOUND_VALUE` (JS `undefined`) is `Option.none`; decoded values are
  `Option.some`.  JS objects used as id→value maps are association lists
  `List (String × V)` (JS objects have pairwise distinct keys).
* Asynchronous methods become pure state-passing functions returning
  `Except ε α × Store`: an `Except.error` outcome is a raised exception,
  and the store component is the store after the call (so "nothing was
  written" is the store being returned unchanged).
* The caller-supplied resolver of the batch operations is a function from
  the id list it is invoked with; the body of `acquire` is a function of
  the post-increment counter value.  `parseInt`/`parseFloat` applied to a
  numeric counter are the identity in the integer model.
* For `acquire`/`hashAcquire`, counters live in a `CStore`/`HCStore`
  carrying an injected-fault list: each `incrby` consumes the head of the
  list, `some e` making that store command raise `e` (e.g. a network
  failure), `none` letting it succeed.  This models that the compensating
  decrement can itself fail independently of the initial increment.
* For `deletePattern`, the multi-page scan is a parameter
  `pages : List (List String)` of raw (still key-prefixed) keys, and
  `key.substring(length)` is dropping `length` characters.
-/

namespace IoredisCache

/-- A stored redis string entry: raw text plus optional ttl. -/
structure Entry where
  raw : String
  ttl : Option Nat
  deriving DecidableEq, Repr

/-- The plain string keyspace. -/
abbrev Store := String → Option Entry

/-- The hash keyspace: hash key → field → raw value. -/
abbrev HStore := String → String → Option String

/-- `data ? parse(data) : NOT_FOUND_VALUE` on a raw hash/mget result:
`data` is falsy when it is `null` (absent) or the empty string. -/
def strToValue {V : Type} (parse : String → V) : Option String → Option V
  | none => none
  | some s => if s = "" then none else some (parse s)

/-- Same falsy check on a stored `Entry` (its raw text). -/
def entryToValue {V : Type} (parse : String → V) : Option Entry → Option V
  | none => none
  | some e => if e.raw = "" then none else some (parse e.raw)

/-- `getCache`: `redis.get` then decode unless falsy (Cache.ts lines 294-297). -/
def getCache {V : Type} (parse : String → V) (st : Store) (key : String) : Option V :=
  entryToValue parse (st key)

/-- `setCache`: stringify and `set`/`setex` (Cache.ts lines 299-302).
`setex` stores with a ttl; plain `set` clears any previous ttl. -/
def setCache {V : Type} (stringify : V → String) (st : Store) (key : String)
    (v : V) (ttl : Option Nat) : Store :=
  fun k => if k = key then some ⟨stringify v, ttl⟩ else st k

/-- `cache` (point cache-aside, Cache.ts lines 284-292): return the hit,
else run the resolver, persist its value and return it. -/
def cache {V ε : Type} (parse : String → V) (stringify : V → String)
    (st : Store) (key : String) (fn : Except ε V) (ttl : Option Nat) :
    Except ε V × Store :=
  match getCache parse st key with
  | some v => (Except.ok v, st)
  | none =>
    match fn with
    | Except.error e => (Except.error e, st)
    | Except.ok v => (Except.ok v, setCache stringify st key v ttl)

/-- `getHashCache`: `redis.hget` then decode unless falsy (lines 379-382). -/
def getHashCache {V : Type} (parse : String → V) (st : HStore)
    (key field : String) : Option V :=
  strToValue parse (st key field)

/-- `setHashCache`: stringify and `hset` (lines 384-387). -/
def setHashCache {V : Type} (stringify : V → String) (st : HStore)
    (key field : String) (v : V) : HStore :=
  fun k f => if k = key ∧ f = field then some (stringify v) else st k f

/-! ## Batch cache-aside (`manyCache`, lines 304-346) -/

/-- A resolver result: an id-keyed JS object or a positionally-aligned array
(`Map<T> | T[]`, line 304). -/
inductive ResolverResult (V : Type) where
  | map (m : List (String × V))
  | arr (l : List V)

/-- JS object property read `m[k]` on an association list. -/
def alistLookup {V : Type} : List (String × V) → String → Option V
  | [], _ => none
  | kv :: rest, k => if kv.1 = k then some kv.2 else alistLookup rest k

/-- Lines 314-316: `Array.isArray(uncachedValues) ? uncachedKeys.reduce(...) :
uncachedValues` — pair array entries positionally with the miss ids. -/
def normalizeResolver {V : Type} (missIds : List String) :
    ResolverResult V → List (String × V)
  | ResolverResult.map m => m
  | ResolverResult.arr l => missIds.zip l

/-- Lines 307-310 (and 391-394): push `keys[i]` whenever `cachedValues[i]`
is the not-found sentinel. -/
def collectMiss {V : Type} : List String → List (Option V) → List String
  | _, [] => []
  | [], _ :: _ => []
  | k :: ks, v :: vs =>
    match v with
    | none => k :: collectMiss ks vs
    | some _ => collectMiss ks vs

/-- Lines 321-325 (and 402-406): overwrite each not-found position `i` with
`uncachedValueMap[keys[i]]`, keeping hits. -/
def mergeValues {V : Type} (m : List (String × V)) :
    List String → List (Option V) → List (Option V)
  | _, [] => []
  | [], v :: vs => v :: vs
  | k :: ks, v :: vs =>
    (match v with
     | some x => some x
     | none => alistLookup m k) :: mergeValues m ks vs

/-- `getManyCache` (lines 330-335): `mget` then per-position falsy check.
The `keys.length <= 0` early return coincides with mapping `[]`. -/
def getManyCache {V : Type} (parse : String → V) (st : Store)
    (keys : List String) : List (Option V) :=
  keys.map fun k => entryToValue parse (st k)

/-- `setManyCache` (lines 337-346): `mset` all pairs; with a ttl the pipeline
additionally issues `expire key ttl` for every key of the map. -/
def setManyCache {V : Type} (stringify : V → String) (st : Store)
    (m : List (String × V)) (ttl : Option Nat) : Store :=
  m.foldl (fun s kv => fun k => if k = kv.1 then some ⟨stringify kv.2, ttl⟩ else s k) st

/-- `manyCache` (lines 304-328): batch cache-aside with prefix and ttl. -/
def manyCache {V ε : Type} (parse : String → V) (stringify : V → String)
    (st : Store) (keys : List String)
    (fn : List String → Except ε (ResolverResult V)) (pre : String)
    (ttl : Option Nat) : Except ε (List (Option V)) × Store :=
  let fullKeys := keys.map fun k => pre ++ k
  let cachedValues := getManyCache parse st fullKeys
  let uncachedKeys := collectMiss keys cachedValues
  if uncachedKeys.isEmpty then (Except.ok cachedValues, st)
  else
    match fn uncachedKeys with
    | Except.error e => (Except.error e, st)
    | Except.ok r =>
      let uncachedValueMap := normalizeResolver uncachedKeys r
      let fullKeyMap := uncachedValueMap.map fun kv => (pre ++ kv.1, kv.2)
      let st1 := setManyCache stringify st fullKeyMap ttl
      (Except.ok (mergeValues uncachedValueMap keys cachedValues), st1)

/-! ## Hash batch cache-aside (`hashManyCache`, lines 389-422) -/

/-- `getHashManyCache` (lines 411-416): `hmget` then per-position falsy check. -/
def getHashManyCache {V : Type} (parse : String → V) (st : HStore)
    (key : String) (ids : List String) : List (Option V) :=
  ids.map fun i => strToValue parse (st key i)

/-- `setHashManyCache` (lines 418-422): `hmset` all field/value pairs. -/
def setHashManyCache {V : Type} (stringify : V → String) (st : HStore)
    (key : String) (m : List (String × V)) : HStore :=
  m.foldl
    (fun s kv => fun k f => if k = key ∧ f = kv.1 then some (stringify kv.2) else s k f)
    st

/-- `hashManyCache` (lines 389-409): batch cache-aside inside one hash key. -/
def hashManyCache {V ε : Type} (parse : String → V) (stringify : V → String)
    (st : HStore) (key : String) (ids : List String)
    (fn : List String → Except ε (ResolverResult V)) :
    Except ε (List (Option V)) × HStore :=
  let cachedValues := getHashManyCache parse st key ids
  let uncachedIds := collectMiss ids cachedValues
  if uncachedIds.isEmpty then (Except.ok cachedValues, st)
  else
    match fn uncachedIds with
    | Except.error e => (Except.error e, st)
    | Except.ok r =>
      let uncachedValueMap := normalizeResolver uncachedIds r
      let st1 := setHashManyCache stringify st key uncachedValueMap
      (Except.ok (mergeValues uncachedValueMap ids cachedValues), st1)

/-! ## Counter reservation (`acquire` lines 428-439, `hashAcquire` 441-452) -/

/-- Counter keyspace with injected store-command faults: each `incrby`
consumes the head of `faults`; `some e` makes that command raise `e`. -/
structure CStore (ε : Type) where
  val : String → Int
  faults : List (Option ε)

/-- `redis.incrby key amount` (create-if-absent then add; `val` defaults
absent keys to `0`), subject to the next injected fault. -/
def cIncrby {ε : Type} (s : CStore ε) (key : String) (amount : Int) :
    Except ε Int × CStore ε :=
  match s.faults with
  | some e :: rest => (Except.error e, { s with faults := rest })
  | none :: rest =>
    let v := s.val key + amount
    (Except.ok v, { val := fun k => if k = key then v else s.val k, faults := rest })
  | [] =>
    let v := s.val key + amount
    (Except.ok v, { val := fun k => if k = key then v else s.val k, faults := [] })

/-- `acquire` (lines 428-439).  The `try` block covers both the initial
increment and the body; the `catch` block awaits a `-amount` increment and
then rethrows the caught error — so an error raised by the compensating
increment itself propagates in place of the caught one. -/
def acquire {ε α : Type} (s : CStore ε) (key : String) (amount : Int)
    (fn : Int → Except ε α) : Except ε α × CStore ε :=
  match cIncrby s key amount with
  | (Except.error e, s1) =>
    match cIncrby s1 key (-amount) with
    | (Except.error e2, s2) => (Except.error e2, s2)
    | (Except.ok _, s2) => (Except.error e, s2)
  | (Except.ok current, s1) =>
    match fn current with
    | Except.ok result => (Except.ok result, s1)
    | Except.error err =>
      match cIncrby s1 key (-amount) with
      | (Except.error e2, s2) => (Except.error e2, s2)
      | (Except.ok _, s2) => (Except.error err, s2)

/-- Hash counter keyspace with injected faults, as in `CStore`. -/
structure HCStore (ε : Type) where
  val : String → String → Int
  faults : List (Option ε)

/-- `redis.hincrby key field amount`, subject to the next injected fault. -/
def hIncrby {ε : Type} (s : HCStore ε) (key field : String) (amount : Int) :
    Except ε Int × HCStore ε :=
  match s.faults with
  | some e :: rest => (Except.error e, { s with faults := rest })
  | none :: rest =>
    let v := s.val key field + amount
    (Except.ok v,
     { val := fun k f => if k = key ∧ f = field then v else s.val k f, faults := rest })
  | [] =>
    let v := s.val key field + amount
    (Except.ok v,
     { val := fun k f => if k = key ∧ f = field then v else s.val k f, faults := [] })

/-- `hashAcquire` (lines 441-452), same shape as `acquire` on a hash field. -/
def hashAcquire {ε α : Type} (s : HCStore ε) (key field : String) (amount : Int)
    (fn : Int → Except ε α) : Except ε α × HCStore ε :=
  match hIncrby s key field amount with
  | (Except.error e, s1) =>
    match hIncrby s1 key field (-amount) with
    | (Except.error e2, s2) => (Except.error e2, s2)
    | (Except.ok _, s2) => (Except.error e, s2)
  | (Except.ok current, s1) =>
    match fn current with
    | Except.ok result => (Except.ok result, s1)
    | Except.error err =>
      match hIncrby s1 key field (-amount) with
      | (Except.error e2, s2) => (Except.error e2, s2)
      | (Except.ok _, s2) => (Except.error err, s2)

/-! ## Pattern deletion (`deletePattern`, lines 352-367) -/

/-- `key.substring(n)`: drop the first `n` characters. -/
def subFrom (n : Nat) (s : String) : String := ⟨s.data.drop n⟩

/-- The accumulated delete pipelines: already-fired jobs plus the pipeline
currently being filled. -/
structure PipeState where
  jobs : List (List String)
  pipe : List String

/-- One scan page (lines 356-364): queue `del key.substring(length)` for
every scanned key, then — after the whole page — fire the pipeline as one
job if it holds at least `batch` commands. -/
def pushPage (plen : Nat) (batch : Nat) (s : PipeState) (page : List String) :
    PipeState :=
  if batch ≤ (s.pipe ++ page.map (subFrom plen)).length
  then { jobs := s.jobs ++ [s.pipe ++ page.map (subFrom plen)], pipe := [] }
  else { jobs := s.jobs, pipe := s.pipe ++ page.map (subFrom plen) }

/-- The grouped delete jobs `deletePattern` fires (lines 353-365), each a
list of unprefixed keys; the trailing pipeline is always fired (line 365). -/
def deleteBatches (pre : String) (batch : Nat) (pages : List (List String)) :
    List (List String) :=
  let s := pages.foldl (pushPage pre.length batch) ⟨[], []⟩
  s.jobs ++ [s.pipe]

/-- A store-level `del k` issued through the prefixed client: the configured
key prefix is prepended again by the client. -/
def delKey (pre : String) (st : Store) (k : String) : Store :=
  fun q => if q = pre ++ k then none else st q

/-- Apply every fired delete job to the store. -/
def applyBatches (pre : String) (st : Store) (bs : List (List String)) : Store :=
  bs.foldl (fun s b => b.foldl (delKey pre) s) st

/-- `deletePattern` (lines 352-367) over scan pages of raw (prefixed) keys:
resulting store, plus the fired jobs. -/
def deletePattern (pre : String) (batch : Nat) (st : Store)
    (pages : List (List String)) : Store × List (List String) :=
  let bs := deleteBatches pre batch pages
  (applyBatches pre st bs, bs)

/-! ## Helper lemmas -/

theorem alistLookup_eq_none {V : Type} (m : List (String × V)) (k : String) :
    alistLookup m k = none ↔ ∀ v, (k, v) ∉ m := by
  induction m with
  | nil => simp [alistLookup]
  | cons kv rest ih =>
    simp only [alistLookup]
    by_cases h : kv.1 = k
    · simp only [h, if_pos rfl]
      constructor
      · intro hc; cases hc
      · intro hall
        exact absurd (List.mem_cons_self kv rest) (by
          have h2 := hall kv.2
          simp only [← h] at h2
          exact h2)
    · simp only [if_neg h, ih]
      constructor
      · intro hall v hv
        rcases List.mem_cons.mp hv with h1 | h2
        · exact h (by rw [← h1])
        · exact hall v h2
      · intro hall v hv
        exact hall v (List.mem_cons_of_mem _ hv)

theorem collectMiss_map {V : Type} (f : String → Option V) (ks : List String) :
    collectMiss ks (ks.map f) = ks.filter fun k => (f k).isNone := by
  induction ks with
  | nil => rfl
  | cons k ks ih =>
    simp only [List.map_cons, collectMiss, List.filter_cons]
    cases hf : f k with
    | none => simp [hf, ih]
    | some v => simp [hf, ih]

theorem mergeValues_length {V : Type} (m : List (String × V)) :
    ∀ (ks : List String) (vs : List (Option V)),
      (mergeValues m ks vs).length = vs.length := by
  intro ks
  induction ks with
  | nil => intro vs; cases vs <;> rfl
  | cons k ks ih =>
    intro vs
    cases vs with
    | nil => rfl
    | cons v vs => simp [mergeValues, ih]

theorem map_getD {α β : Type} (d : α) (d' : β) (f : α → β) :
    ∀ (ks : List α) (i : Nat), i < ks.length →
      (ks.map f).getD i d' = f (ks.getD i d) := by
  intro ks
  induction ks with
  | nil => intro i h; simp at h
  | cons k ks ih =>
    intro i h
    cases i with
    | zero => rfl
    | succ j =>
      simp only [List.map_cons, List.getD_cons_succ]
      exact ih j (by simpa using h)

theorem mergeValues_getD {V : Type} (m : List (String × V)) :
    ∀ (ks : List String) (vs : List (Option V)) (i : Nat),
      ks.length = vs.length → i < vs.length →
      (mergeValues m ks vs).getD i none =
        (match vs.getD i none with
         | some x => some x
         | none => alistLookup m (ks.getD i "")) := by
  intro ks
  induction ks with
  | nil => intro vs i hlen h; rw [← hlen] at h; simp at h
  | cons k ks ih =>
    intro vs i hlen h
    cases vs with
    | nil => simp at h
    | cons v vs =>
      cases i with
      | zero => cases v <;> simp [mergeValues]
      | succ j =>
        simp only [mergeValues, List.getD_cons_succ]
        exact ih vs j (by simpa using hlen) (by simpa using h)

theorem mergeValues_congr {V : Type} (m m' : List (String × V)) :
    ∀ (ks : List String) (vs : List (Option V)),
      (∀ k ∈ ks, alistLookup m k = alistLookup m' k) →
      mergeValues m ks vs = mergeValues m' ks vs := by
  intro ks
  induction ks with
  | nil => intro vs _; cases vs <;> rfl
  | cons k ks ih =>
    intro vs hk
    cases vs with
    | nil => rfl
    | cons v vs =>
      have h1 : alistLookup m k = alistLookup m' k := hk k (List.mem_cons_self _ _)
      have h2 := ih vs fun x hx => hk x (List.mem_cons_of_mem _ hx)
      cases v <;> simp [mergeValues, h1, h2]

theorem setManyCache_not_mem {V : Type} (stringify : V → String)
    (ttl : Option Nat) (q : String) :
    ∀ (m : List (String × V)) (st : Store), (∀ kv ∈ m, kv.1 ≠ q) →
      setManyCache stringify st m ttl q = st q := by
  intro m
  induction m with
  | nil => intro st _; rfl
  | cons kv rest ih =>
    intro st hm
    simp only [setManyCache, List.foldl_cons]
    rw [show (List.foldl _ _ rest : Store) = setManyCache stringify _ rest ttl from rfl]
    rw [ih _ fun x hx => hm x (List.mem_cons_of_mem _ hx)]
    have hne : kv.1 ≠ q := hm kv (List.mem_cons_self _ _)
    exact if_neg fun hq => hne hq.symm

theorem setManyCache_mem {V : Type} (stringify : V → String)
    (ttl : Option Nat) (k : String) (v : V) :
    ∀ (m : List (String × V)) (st : Store),
      (m.map Prod.fst).Nodup → (k, v) ∈ m →
      setManyCache stringify st m ttl k = some ⟨stringify v, ttl⟩ := by
  intro m
  induction m with
  | nil => intro st _ h; cases h
  | cons kv rest ih =>
    intro st hnd hm
    have hnd' : (rest.map Prod.fst).Nodup := (List.nodup_cons.mp (by simpa using hnd)).2
    rcases List.mem_cons.mp hm with h1 | h2
    · have hk : kv.1 ∉ rest.map Prod.fst := (List.nodup_cons.mp (by simpa using hnd)).1
      have hkk : kv.1 = k := by rw [← h1]
      have hv2 : kv.2 = v := by rw [← h1]
      simp only [setManyCache, List.foldl_cons]
      rw [show (List.foldl _ _ rest : Store) = setManyCache stringify _ rest ttl from rfl]
      rw [setManyCache_not_mem]
      · rw [if_pos hkk.symm, hv2]
      · intro x hx hxk
        exact hk (by rw [hkk, ← hxk]; exact List.mem_map_of_mem Prod.fst hx)
    · simp only [setManyCache, List.foldl_cons]
      rw [show (List.foldl _ _ rest : Store) = setManyCache stringify _ rest ttl from rfl]
      exact ih _ hnd' h2

theorem setHashManyCache_not_mem {V : Type} (stringify : V → String)
    (key : String) (q f : String) :
    ∀ (m : List (String × V)) (st : HStore), (q ≠ key ∨ ∀ kv ∈ m, kv.1 ≠ f) →
      setHashManyCache stringify st key m q f = st q f := by
  intro m
  induction m with
  | nil => intro st _; rfl
  | cons kv rest ih =>
    intro st hm
    simp only [setHashManyCache, List.foldl_cons]
    rw [show (List.foldl _ _ rest : HStore) = setHashManyCache stringify _ key rest from rfl]
    rw [ih _ (hm.imp id fun h x hx => h x (List.mem_cons_of_mem _ hx))]
    rcases hm with h | h
    · exact if_neg fun hc => h hc.1
    · have hne : kv.1 ≠ f := h kv (List.mem_cons_self _ _)
      exact if_neg fun hc => hne hc.2.symm

theorem setHashManyCache_mem {V : Type} (stringify : V → String)
    (key : String) (f : String) (v : V) :
    ∀ (m : List (String × V)) (st : HStore),
      (m.map Prod.fst).Nodup → (f, v) ∈ m →
      setHashManyCache stringify st key m key f = some (stringify v) := by
  intro m
  induction m with
  | nil => intro st _ h; cases h
  | cons kv rest ih =>
    intro st hnd hm
    have hnd' : (rest.map Prod.fst).Nodup := (List.nodup_cons.mp (by simpa using hnd)).2
    rcases List.mem_cons.mp hm with h1 | h2
    · have hk : kv.1 ∉ rest.map Prod.fst := (List.nodup_cons.mp (by simpa using hnd)).1
      have hkk : kv.1 = f := by rw [← h1]
      have hv2 : kv.2 = v := by rw [← h1]
      simp only [setHashManyCache, List.foldl_cons]
      rw [show (List.foldl _ _ rest : HStore) = setHashManyCache stringify _ key rest from rfl]
      rw [setHashManyCache_not_mem]
      · rw [if_pos ⟨rfl, hkk.symm⟩, hv2]
      · refine Or.inr fun x hx hxk => ?_
        exact hk (by rw [hkk, ← hxk]; exact List.mem_map_of_mem Prod.fst hx)
    · simp only [setHashManyCache, List.foldl_cons]
      rw [show (List.foldl _ _ rest : HStore) = setHashManyCache stringify _ key rest from rfl]
      exact ih _ hnd' h2

/-- The miss subset of a `manyCache` request: the input keys, in input
order, whose prefixed store entry decodes to the not-found sentinel. -/
def uncachedOf {V : Type} (parse : String → V) (st : Store) (pre : String)
    (keys : List String) : List String :=
  keys.filter fun k => (entryToValue parse (st (pre ++ k))).isNone

/-- The miss subset of a `hashManyCache` request. -/
def hashUncachedOf {V : Type} (parse : String → V) (st : HStore) (key : String)
    (ids : List String) : List String :=
  ids.filter fun i => (strToValue parse (st key i)).isNone

theorem getManyCache_map {V : Type} (parse : String → V) (st : Store)
    (pre : String) (keys : List String) :
    getManyCache parse st (keys.map fun k => pre ++ k)
      = keys.map fun k => entryToValue parse (st (pre ++ k)) := by
  simp [getManyCache, List.map_map]

theorem collectMiss_uncached {V : Type} (parse : String → V) (st : Store)
    (pre : String) (keys : List String) :
    collectMiss keys (getManyCache parse st (keys.map fun k => pre ++ k))
      = uncachedOf parse st pre keys := by
  rw [getManyCache_map, collectMiss_map]
  rfl

theorem collectMiss_hashUncached {V : Type} (parse : String → V) (st : HStore)
    (key : String) (ids : List String) :
    collectMiss ids (getHashManyCache parse st key ids)
      = hashUncachedOf parse st key ids := by
  rw [show getHashManyCache parse st key ids
        = ids.map (fun i => strToValue parse (st key i)) from rfl, collectMiss_map]
  rfl

/-- Characterization of `manyCache` through the miss subset. -/
theorem manyCache_eq {V ε : Type} (parse : String → V) (stringify : V → String)
    (st : Store) (keys : List String)
    (fn : List String → Except ε (ResolverResult V)) (pre : String)
    (ttl : Option Nat) :
    manyCache parse stringify st keys fn pre ttl =
      (let u := uncachedOf parse st pre keys
       let cvs := keys.map fun k => entryToValue parse (st (pre ++ k))
       if u.isEmpty then (Except.ok cvs, st)
       else
         match fn u with
         | Except.error e => (Except.error e, st)
         | Except.ok r =>
           let m := normalizeResolver u r
           (Except.ok (mergeValues m keys cvs),
            setManyCache stringify st (m.map fun kv => (pre ++ kv.1, kv.2)) ttl)) := by
  unfold manyCache
  simp only [getManyCache_map, collectMiss_map]
  rfl

/-- Characterization of `hashManyCache` through the miss subset. -/
theorem hashManyCache_eq {V ε : Type} (parse : String → V)
    (stringify : V → String) (st : HStore) (key : String) (ids : List String)
    (fn : List String → Except ε (ResolverResult V)) :
    hashManyCache parse stringify st key ids fn =
      (let u := hashUncachedOf parse st key ids
       let cvs := ids.map fun i => strToValue parse (st key i)
       if u.isEmpty then (Except.ok cvs, st)
       else
         match fn u with
         | Except.error e => (Except.error e, st)
         | Except.ok r =>
           let m := normalizeResolver u r
           (Except.ok (mergeValues m ids cvs), setHashManyCache stringify st key m)) := by
  unfold hashManyCache
  simp only [collectMiss_hashUncached]
  rfl

theorem getD_mem {α : Type} (d : α) :
    ∀ (l : List α) (i : Nat), i < l.length → l.getD i d ∈ l := by
  intro l
  induction l with
  | nil => intro i h; simp at h
  | cons a l ih =>
    intro i h
    cases i with
    | zero => simp
    | succ j =>
      simp only [List.getD_cons_succ]
      exact List.mem_cons_of_mem _ (ih j (by simpa using h))

theorem string_append_cancel {p a b : String} (h : p ++ a = p ++ b) : a = b := by
  have hd : p.data ++ a.data = p.data ++ b.data := congrArg String.data h
  have h2 := List.append_cancel_left hd
  cases a; cases b
  exact congrArg String.mk h2

/-! ## Claims -/

/-- C7: for every key (and hash key/field pair), a falsy raw stored text —
the empty string, or an absent entry — makes `getCache`/`getHashCache`
return the not-found sentinel instead of decoding it, so a stored empty raw
string is indistinguishable from a miss; `getManyCache` and
`getHashManyCache` behave the same per position (they are the positionwise
maps of the point reads). -/
theorem claim_C7 {V : Type} (parse : String → V) :
    (∀ (st : Store) (key : String) (e : Entry), st key = some e → e.raw = "" →
        getCache parse st key = none) ∧
    (∀ (st : Store) (key : String), st key = none → getCache parse st key = none) ∧
    (∀ (st : HStore) (key field : String) (s : String),
        st key field = some s → s = "" → getHashCache parse st key field = none) ∧
    (∀ (st : HStore) (key field : String), st key field = none →
        getHashCache parse st key field = none) ∧
    (∀ (st : Store) (keys : List String),
        getManyCache parse st keys = keys.map fun k => getCache parse st k) ∧
    (∀ (st : HStore) (key : String) (ids : List String),
        getHashManyCache parse st key ids = ids.map fun i => getHashCache parse st key i) := by
  refine ⟨?_, ?_, ?_, ?_, ?_, ?_⟩
  · intro st key e h1 h2
    simp [getCache, entryToValue, h1, h2]
  · intro st key h1
    simp [getCache, entryToValue, h1]
  · intro st key field s h1 h2
    simp [getHashCache, strToValue, h1, h2]
  · intro st key field h1
    simp [getHashCache, strToValue, h1]
  · intro st keys; rfl
  · intro st key ids; rfl

/-- Witness for C7 at concrete inputs: a key holding the raw empty string,
and a hash field holding the raw empty string, both read as not found. -/
theorem claim_C7_witness :
    getCache (fun s => s) (fun k => if k = "a" then some ⟨"", none⟩ else none) "a" = none ∧
    getHashCache (fun s => s) (fun _ _ => some "") "h" "f" = none :=
  ⟨(claim_C7 (fun s => s)).1 _ "a" ⟨"", none⟩ (by simp) rfl,
   (claim_C7 (fun s => s)).2.2.1 _ "h" "f" "" rfl rfl⟩

/-- C5: point cache-aside.  On a hit `cache` returns the decoded value and
neither consults the resolver nor writes (result is the same for every
resolver).  On a miss it persists the resolver's value unconditionally
under the given ttl and returns it.  After a miss-then-set, a second
`cache` call on the same key is a hit for any resolver, provided the
stored text is non-empty (true of the default JSON codec, whose output is
never the empty string). -/
theorem claim_C5 {V ε : Type} (parse : String → V) (stringify : V → String) :
    (∀ (st : Store) (key : String) (v : V) (fn : Except ε V) (ttl : Option Nat),
        getCache parse st key = some v →
        cache parse stringify st key fn ttl = (Except.ok v, st)) ∧
    (∀ (st : Store) (key : String) (v : V) (ttl : Option Nat),
        getCache parse st key = none →
        cache (ε := ε) parse stringify st key (Except.ok v) ttl
            = (Except.ok v, setCache stringify st key v ttl) ∧
          setCache stringify st key v ttl key = some ⟨stringify v, ttl⟩) ∧
    (∀ (st : Store) (key : String) (v : V) (ttl ttl2 : Option Nat) (fn2 : Except ε V),
        stringify v ≠ "" →
        cache parse stringify (setCache stringify st key v ttl) key fn2 ttl2
          = (Except.ok (parse (stringify v)), setCache stringify st key v ttl)) := by
  refine ⟨?_, ?_, ?_⟩
  · intro st key v fn ttl h
    simp [cache, h]
  · intro st key v ttl h
    exact ⟨by simp [cache, h], by simp [setCache]⟩
  · intro st key v ttl ttl2 fn2 hne
    simp [cache, getCache, setCache, entryToValue, hne]

/-- Witness for C5: a hit returns the cached value for an erroring resolver;
a miss persists; the immediate second call is a hit. -/
theorem claim_C5_witness :
    (cache (ε := String) (fun s => s) (fun v => "J" ++ v)
        (fun k => if k = "k" then some ⟨"x", none⟩ else none) "k"
        (Except.error "nope") none
      = (Except.ok "x", fun k => if k = "k" then some ⟨"x", none⟩ else none)) ∧
    (cache (ε := String) (fun s => s) (fun v => "J" ++ v) (fun _ => none) "k"
        (Except.ok "x") (some 60)
      = (Except.ok "x",
         setCache (fun v => "J" ++ v) (fun _ => none) "k" "x" (some 60))) ∧
    (cache (ε := String) (fun s => s) (fun v => "J" ++ v)
        (setCache (fun v => "J" ++ v) (fun _ => none) "k" "x" (some 60)) "k"
        (Except.error "nope") none
      = (Except.ok "Jx",
         setCache (fun v => "J" ++ v) (fun _ => none) "k" "x" (some 60))) :=
  ⟨(claim_C5 (fun s => s) (fun v => "J" ++ v)).1 _ "k" "x" (Except.error "nope") none
      (by simp [getCache, entryToValue]),
   ((claim_C5 (fun s => s) (fun v => "J" ++ v)).2.1 (fun _ => none) "k" "x" (some 60) rfl).1,
   (claim_C5 (fun s => s) (fun v => "J" ++ v)).2.2 _ "k" "x" (some 60) none
      (Except.error "nope") (by simp)⟩

/-- C6: when the resolver of a point or batch cache-aside raises, the same
error propagates to the caller and the store is returned unchanged. -/
theorem claim_C6 {V ε : Type} (parse : String → V) (stringify : V → String) :
    (∀ (st : Store) (key : String) (e : ε) (ttl : Option Nat),
        getCache parse st key = none →
        cache parse stringify st key (Except.error e) ttl = (Except.error e, st)) ∧
    (∀ (st : Store) (keys : List String)
        (fn : List String → Except ε (ResolverResult V)) (pre : String)
        (ttl : Option Nat) (e : ε),
        fn (uncachedOf parse st pre keys) = Except.error e →
        (uncachedOf parse st pre keys).isEmpty = false →
        manyCache parse stringify st keys fn pre ttl = (Except.error e, st)) ∧
    (∀ (st : HStore) (key : String) (ids : List String)
        (fn : List String → Except ε (ResolverResult V)) (e : ε),
        fn (hashUncachedOf parse st key ids) = Except.error e →
        (hashUncachedOf parse st key ids).isEmpty = false →
        hashManyCache parse stringify st key ids fn = (Except.error e, st)) := by
  refine ⟨?_, ?_, ?_⟩
  · intro st key e ttl h
    simp [cache, h]
  · intro st keys fn pre ttl e h1 h2
    rw [manyCache_eq]
    simp [h1, h2]
  · intro st key ids fn e h1 h2
    rw [hashManyCache_eq]
    simp [h1, h2]

/-- Witness for C6: an erroring resolver on a miss propagates and leaves
the store unchanged, for the point, batch and hash-batch operations. -/
theorem claim_C6_witness :
    (cache (fun s => s) (fun v => v) (fun _ => none) "k"
        (Except.error "boom") none = (Except.error "boom", fun _ => none)) ∧
    (manyCache (fun s => s) (fun v => v) (fun _ => none) ["a"]
        (fun _ => Except.error "boom") "p" none
      = (Except.error "boom", fun _ => none)) ∧
    (hashManyCache (fun s => s) (fun v => v) (fun _ _ => none) "h" ["a"]
        (fun _ => Except.error "boom")
      = (Except.error "boom", fun _ _ => none)) :=
  ⟨(claim_C6 (fun s => s) (fun v => v)).1 _ "k" "boom" none rfl,
   (claim_C6 (fun s => s) (fun v => v)).2.1 _ ["a"] _ "p" none "boom" rfl rfl,
   (claim_C6 (fun s => s) (fun v => v)).2.2 _ "h" ["a"] _ "boom" rfl rfl⟩

/-- C2: a successful `manyCache`/`hashManyCache` returns a sequence of
exactly the input's length, aligned with the input order: every hit
position carries the decoded value of the same-position input id. -/
theorem claim_C2 {V ε : Type} (parse : String → V) (stringify : V → String) :
    (∀ (st : Store) (keys : List String)
        (fn : List String → Except ε (ResolverResult V)) (pre : String)
        (ttl : Option Nat) (res : List (Option V)),
        (manyCache parse stringify st keys fn pre ttl).fst = Except.ok res →
        res.length = keys.length ∧
        ∀ i v, i < keys.length →
          entryToValue parse (st (pre ++ keys.getD i "")) = some v →
          res.getD i none = some v) ∧
    (∀ (st : HStore) (key : String) (ids : List String)
        (fn : List String → Except ε (ResolverResult V)) (res : List (Option V)),
        (hashManyCache parse stringify st key ids fn).fst = Except.ok res →
        res.length = ids.length ∧
        ∀ i v, i < ids.length →
          strToValue parse (st key (ids.getD i "")) = some v →
          res.getD i none = some v) := by
  constructor
  · intro st keys fn pre ttl res h
    rw [manyCache_eq] at h
    simp only at h
    by_cases hu : (uncachedOf parse st pre keys).isEmpty
    · rw [if_pos hu] at h
      simp only [Except.ok.injEq] at h
      subst h
      refine ⟨by simp, fun i v hi hv => ?_⟩
      rw [map_getD "" none _ keys i hi, hv]
    · rw [if_neg hu] at h
      cases hfn : fn (uncachedOf parse st pre keys) with
      | error e => rw [hfn] at h; simp at h
      | ok r =>
        rw [hfn] at h
        simp only [Except.ok.injEq] at h
        subst h
        have hlen : keys.length
            = (keys.map fun k => entryToValue parse (st (pre ++ k))).length := by simp
        refine ⟨by rw [mergeValues_length]; simp, fun i v hi hv => ?_⟩
        rw [mergeValues_getD _ keys _ i hlen (by simpa using hi),
          map_getD "" none _ keys i hi, hv]
  · intro st key ids fn res h
    rw [hashManyCache_eq] at h
    simp only at h
    by_cases hu : (hashUncachedOf parse st key ids).isEmpty
    · rw [if_pos hu] at h
      simp only [Except.ok.injEq] at h
      subst h
      refine ⟨by simp, fun i v hi hv => ?_⟩
      rw [map_getD "" none _ ids i hi, hv]
    · rw [if_neg hu] at h
      cases hfn : fn (hashUncachedOf parse st key ids) with
      | error e => rw [hfn] at h; simp at h
      | ok r =>
        rw [hfn] at h
        simp only [Except.ok.injEq] at h
        subst h
        have hlen : ids.length
            = (ids.map fun i => strToValue parse (st key i)).length := by simp
        refine ⟨by rw [mergeValues_length]; simp, fun i v hi hv => ?_⟩
        rw [mergeValues_getD _ ids _ i hlen (by simpa using hi),
          map_getD "" none _ ids i hi, hv]

/-- Witness for C2: a two-id call (one hit, one miss) returns two values,
the hit kept at its position. -/
theorem claim_C2_witness :
    ([some "1", some "2"] : List (Option String)).length
        = (["a", "b"] : List String).length ∧
    ([some "1", some "2"] : List (Option String)).getD 0 none = some "1" := by
  have h := (claim_C2 (ε := String) (fun s => s) (fun v => v)).1
    (fun k => if k = "pa" then some ⟨"1", none⟩ else none) ["a", "b"]
    (fun _ => Except.ok (ResolverResult.map [("b", "2")])) "p" none
    [some "1", some "2"] rfl
  exact ⟨h.1, h.2 0 "1" (by decide) rfl⟩

/-- C3: the resolver of `manyCache`/`hashManyCache` is consulted only at
the miss subset — the input ids, in input order, whose read was the
not-found sentinel (a filter of the input, hence a sublist) — and when
that subset is empty the result does not depend on the resolver at all
(it is never invoked). -/
theorem claim_C3 {V ε : Type} (parse : String → V) (stringify : V → String) :
    (∀ (st : Store) (pre : String) (keys : List String),
        uncachedOf parse st pre keys
            = keys.filter (fun k => (getCache parse st (pre ++ k)).isNone) ∧
        (uncachedOf parse st pre keys).Sublist keys ∧
        ∀ k, k ∈ uncachedOf parse st pre keys ↔
              k ∈ keys ∧ getCache parse st (pre ++ k) = none) ∧
    (∀ (st : Store) (keys : List String)
        (fn fn' : List String → Except ε (ResolverResult V)) (pre : String)
        (ttl : Option Nat),
        uncachedOf parse st pre keys = [] →
        manyCache parse stringify st keys fn pre ttl
          = manyCache parse stringify st keys fn' pre ttl) ∧
    (∀ (st : Store) (keys : List String)
        (fn fn' : List String → Except ε (ResolverResult V)) (pre : String)
        (ttl : Option Nat),
        fn (uncachedOf parse st pre keys) = fn' (uncachedOf parse st pre keys) →
        manyCache parse stringify st keys fn pre ttl
          = manyCache parse stringify st keys fn' pre ttl) ∧
    (∀ (st : HStore) (key : String) (ids : List String),
        hashUncachedOf parse st key ids
            = ids.filter (fun i => (getHashCache parse st key i).isNone) ∧
        (hashUncachedOf parse st key ids).Sublist ids ∧
        ∀ i, i ∈ hashUncachedOf parse st key ids ↔
              i ∈ ids ∧ getHashCache parse st key i = none) ∧
    (∀ (st : HStore) (key : String) (ids : List String)
        (fn fn' : List String → Except ε (ResolverResult V)),
        hashUncachedOf parse st key ids = [] →
        hashManyCache parse stringify st key ids fn
          = hashManyCache parse stringify st key ids fn') ∧
    (∀ (st : HStore) (key : String) (ids : List String)
        (fn fn' : List String → Except ε (ResolverResult V)),
        fn (hashUncachedOf parse st key ids) = fn' (hashUncachedOf parse st key ids) →
        hashManyCache parse stringify st key ids fn
          = hashManyCache parse stringify st key ids fn') := by
  refine ⟨?_, ?_, ?_, ?_, ?_, ?_⟩
  · intro st pre keys
    refine ⟨rfl, List.filter_sublist _, fun k => ?_⟩
    simp [uncachedOf, List.mem_filter, Option.isNone_iff_eq_none, getCache]
  · intro st keys fn fn' pre ttl h
    rw [manyCache_eq, manyCache_eq]
    simp [h]
  · intro st keys fn fn' pre ttl h
    rw [manyCache_eq, manyCache_eq]
    simp only [h]
  · intro st key ids
    refine ⟨rfl, List.filter_sublist _, fun i => ?_⟩
    simp [hashUncachedOf, List.mem_filter, Option.isNone_iff_eq_none, getHashCache]
  · intro st key ids fn fn' h
    rw [hashManyCache_eq, hashManyCache_eq]
    simp [h]
  · intro st key ids fn fn' h
    rw [hashManyCache_eq, hashManyCache_eq]
    simp only [h]

/-- Witness for C3: with every id a hit, `manyCache` gives the same answer
for two resolvers that disagree everywhere; and two resolvers agreeing on
the miss subset give the same answer. -/
theorem claim_C3_witness :
    (manyCache (ε := String) (fun s => s) (fun v => v)
        (fun _ => some ⟨"1", none⟩) ["a"]
        (fun _ => Except.error "boom") "p" none
      = manyCache (fun s => s) (fun v => v) (fun _ => some ⟨"1", none⟩) ["a"]
          (fun _ => Except.ok (ResolverResult.map [])) "p" none) ∧
    (manyCache (ε := String) (fun s => s) (fun v => v) (fun _ => none) ["a"]
        (fun ks => Except.ok (ResolverResult.map (ks.map fun k => (k, "v")))) "p" none
      = manyCache (fun s => s) (fun v => v) (fun _ => none) ["a"]
          (fun _ => Except.ok (ResolverResult.map [("a", "v")])) "p" none) :=
  ⟨(claim_C3 (fun s => s) (fun v => v)).2.1 _ ["a"] _ _ "p" none (by decide),
   (claim_C3 (fun s => s) (fun v => v)).2.2.1 _ ["a"] _ _ "p" none rfl⟩

/-- C4: in batch cache-aside, a miss id the resolver's normalized result
omits yields the not-found sentinel at its original position, and its
store location is left unchanged (nothing is persisted for it). -/
theorem claim_C4 {V ε : Type} (parse : String → V) (stringify : V → String) :
    (∀ (st : Store) (keys : List String)
        (fn : List String → Except ε (ResolverResult V)) (pre : String)
        (ttl : Option Nat) (r : ResolverResult V) (i : Nat),
        fn (uncachedOf parse st pre keys) = Except.ok r →
        i < keys.length →
        entryToValue parse (st (pre ++ keys.getD i "")) = none →
        alistLookup (normalizeResolver (uncachedOf parse st pre keys) r)
            (keys.getD i "") = none →
        (∀ res, (manyCache parse stringify st keys fn pre ttl).fst = Except.ok res →
            res.getD i none = none) ∧
        (manyCache parse stringify st keys fn pre ttl).snd (pre ++ keys.getD i "")
          = st (pre ++ keys.getD i "")) ∧
    (∀ (st : HStore) (key : String) (ids : List String)
        (fn : List String → Except ε (ResolverResult V))
        (r : ResolverResult V) (i : Nat),
        fn (hashUncachedOf parse st key ids) = Except.ok r →
        i < ids.length →
        strToValue parse (st key (ids.getD i "")) = none →
        alistLookup (normalizeResolver (hashUncachedOf parse st key ids) r)
            (ids.getD i "") = none →
        (∀ res, (hashManyCache parse stringify st key ids fn).fst = Except.ok res →
            res.getD i none = none) ∧
        (hashManyCache parse stringify st key ids fn).snd key (ids.getD i "")
          = st key (ids.getD i "")) := by
  constructor
  · intro st keys fn pre ttl r i hfn hi hmiss homit
    have hmem : keys.getD i "" ∈ uncachedOf parse st pre keys := by
      refine List.mem_filter.mpr ⟨getD_mem "" keys i hi, ?_⟩
      show (entryToValue parse (st (pre ++ keys.getD i ""))).isNone = true
      rw [hmiss]
      rfl
    have hne : (uncachedOf parse st pre keys).isEmpty = false := by
      cases he : uncachedOf parse st pre keys with
      | nil => rw [he] at hmem; cases hmem
      | cons a l => rfl
    rw [manyCache_eq]
    simp only [hne, Bool.false_eq_true, if_false, hfn]
    constructor
    · intro res h
      simp only [Except.ok.injEq] at h
      subst h
      have hlen : keys.length
          = (keys.map fun k => entryToValue parse (st (pre ++ k))).length := by simp
      rw [mergeValues_getD _ keys _ i hlen (by simpa using hi),
        map_getD "" none _ keys i hi, hmiss, homit]
    · refine setManyCache_not_mem stringify ttl _ _ st fun kv hkv => ?_
      rcases List.mem_map.mp hkv with ⟨x, hx, hxeq⟩
      subst hxeq
      intro hcontra
      have hx1 : x.1 = keys.getD i "" := string_append_cancel hcontra
      have hnot := (alistLookup_eq_none _ _).mp homit x.2
      rw [← hx1] at hnot
      exact hnot hx
  · intro st key ids fn r i hfn hi hmiss homit
    have hmem : ids.getD i "" ∈ hashUncachedOf parse st key ids := by
      refine List.mem_filter.mpr ⟨getD_mem "" ids i hi, ?_⟩
      show (strToValue parse (st key (ids.getD i ""))).isNone = true
      rw [hmiss]
      rfl
    have hne : (hashUncachedOf parse st key ids).isEmpty = false := by
      cases he : hashUncachedOf parse st key ids with
      | nil => rw [he] at hmem; cases hmem
      | cons a l => rfl
    rw [hashManyCache_eq]
    simp only [hne, Bool.false_eq_true, if_false, hfn]
    constructor
    · intro res h
      simp only [Except.ok.injEq] at h
      subst h
      have hlen : ids.length
          = (ids.map fun j => strToValue parse (st key j)).length := by simp
      rw [mergeValues_getD _ ids _ i hlen (by simpa using hi),
        map_getD "" none _ ids i hi, hmiss, homit]
    · refine setHashManyCache_not_mem stringify key _ _ _ st (Or.inr fun kv hkv => ?_)
      intro hcontra
      have hnot := (alistLookup_eq_none _ _).mp homit kv.2
      rw [← hcontra] at hnot
      exact hnot hkv

/-- Witness for C4: resolver omits the only miss id; the result holds the
sentinel there and the store location stays absent. -/
theorem claim_C4_witness :
    ([(none : Option String)].getD 0 none = none) ∧
    ((manyCache (ε := String) (fun s => s) (fun v => v) (fun _ => none) ["a"]
        (fun _ => Except.ok (ResolverResult.map [("zz", "1")])) "p" none).snd "pa"
      = none) := by
  have h := (claim_C4 (ε := String) (fun s => s) (fun v => v)).1 (fun _ => none)
    ["a"] (fun _ => Except.ok (ResolverResult.map [("zz", "1")])) "p" none
    (ResolverResult.map [("zz", "1")]) 0 rfl (by decide) rfl (by decide)
  exact ⟨h.1 [none] rfl, h.2⟩

/-- C10: the store locations a batch cache-aside call writes are exactly
the keys of the normalized resolver result, prefixed (the hash variant
writes exactly those fields of its hash key): locations outside that set
are unchanged, every key of the result map is written with its stringified
value, and entries outside the requested id list do not affect the
returned sequence. -/
theorem claim_C10 {V ε : Type} (parse : String → V) (stringify : V → String) :
    (∀ (st : Store) (keys : List String)
        (fn : List String → Except ε (ResolverResult V)) (pre : String)
        (ttl : Option Nat) (r : ResolverResult V),
        fn (uncachedOf parse st pre keys) = Except.ok r →
        (uncachedOf parse st pre keys).isEmpty = false →
        (∀ q, (∀ kv ∈ normalizeResolver (uncachedOf parse st pre keys) r,
                pre ++ kv.1 ≠ q) →
            (manyCache parse stringify st keys fn pre ttl).snd q = st q) ∧
        (((normalizeResolver (uncachedOf parse st pre keys) r).map Prod.fst).Nodup →
          ∀ k v, (k, v) ∈ normalizeResolver (uncachedOf parse st pre keys) r →
            (manyCache parse stringify st keys fn pre ttl).snd (pre ++ k)
              = some ⟨stringify v, ttl⟩) ∧
        (∀ m', (∀ k ∈ keys,
              alistLookup (normalizeResolver (uncachedOf parse st pre keys) r) k
                = alistLookup m' k) →
            (manyCache parse stringify st keys fn pre ttl).fst
              = Except.ok (mergeValues m' keys
                  (keys.map fun k => entryToValue parse (st (pre ++ k)))))) ∧
    (∀ (st : HStore) (key : String) (ids : List String)
        (fn : List String → Except ε (ResolverResult V)) (r : ResolverResult V),
        fn (hashUncachedOf parse st key ids) = Except.ok r →
        (hashUncachedOf parse st key ids).isEmpty = false →
        (∀ k f, (k ≠ key ∨ ∀ kv ∈ normalizeResolver (hashUncachedOf parse st key ids) r,
                kv.1 ≠ f) →
            (hashManyCache parse stringify st key ids fn).snd k f = st k f) ∧
        (((normalizeResolver (hashUncachedOf parse st key ids) r).map Prod.fst).Nodup →
          ∀ f v, (f, v) ∈ normalizeResolver (hashUncachedOf parse st key ids) r →
            (hashManyCache parse stringify st key ids fn).snd key f
              = some (stringify v)) ∧
        (∀ m', (∀ i ∈ ids,
              alistLookup (normalizeResolver (hashUncachedOf parse st key ids) r) i
                = alistLookup m' i) →
            (hashManyCache parse stringify st key ids fn).fst
              = Except.ok (mergeValues m' ids
                  (ids.map fun i => strToValue parse (st key i))))) := by
  constructor
  · intro st keys fn pre ttl r hfn hne
    rw [manyCache_eq]
    simp only [hne, Bool.false_eq_true, if_false, hfn]
    refine ⟨?_, ?_, ?_⟩
    · intro q hq
      exact setManyCache_not_mem stringify ttl q _ st fun kv hkv => by
        rcases List.mem_map.mp hkv with ⟨x, hx, rfl⟩
        exact hq x hx
    · intro hnd k v hkv
      refine setManyCache_mem stringify ttl _ _ _ st ?_ ?_
      · have : ((normalizeResolver (uncachedOf parse st pre keys) r).map
            fun kv => (pre ++ kv.1, kv.2)).map Prod.fst
            = ((normalizeResolver (uncachedOf parse st pre keys) r).map Prod.fst).map
                (fun x => pre ++ x) := by
          simp [List.map_map]
        rw [this]
        exact hnd.map fun a b hab => string_append_cancel hab
      · exact List.mem_map.mpr ⟨(k, v), hkv, rfl⟩
    · intro m' hm'
      rw [mergeValues_congr _ m' keys _ hm']
  · intro st key ids fn r hfn hne
    rw [hashManyCache_eq]
    simp only [hne, Bool.false_eq_true, if_false, hfn]
    refine ⟨?_, ?_, ?_⟩
    · intro k f hq
      exact setHashManyCache_not_mem stringify key k f _ st hq
    · intro hnd f v hkv
      exact setHashManyCache_mem stringify key f v _ st hnd hkv
    · intro m' hm'
      rw [mergeValues_congr _ m' ids _ hm']

/-- Witness for C10: a resolver returning an entry outside the requested
ids persists it (prefixed) without affecting the returned sequence. -/
theorem claim_C10_witness :
    ((manyCache (ε := String) (fun s => s) (fun v => v) (fun _ => none) ["a"]
        (fun _ => Except.ok (ResolverResult.map [("a", "1"), ("zz", "2")])) "p" none).snd
          "pzz" = some ⟨"2", none⟩) ∧
    ((manyCache (ε := String) (fun s => s) (fun v => v) (fun _ => none) ["a"]
        (fun _ => Except.ok (ResolverResult.map [("a", "1"), ("zz", "2")])) "p" none).snd
          "other" = none) := by
  have h := (claim_C10 (ε := String) (fun s => s) (fun v => v)).1 (fun _ => none)
    ["a"] (fun _ => Except.ok (ResolverResult.map [("a", "1"), ("zz", "2")])) "p" none
    (ResolverResult.map [("a", "1"), ("zz", "2")]) rfl rfl
  exact ⟨h.2.1 (by decide) "zz" "2" (by decide), h.1 "other" (by decide)⟩

/-- C8: a resolver returning a positionally-aligned array is equivalent to
one returning the id-keyed map pairing the miss ids, in their original
order, with the array values — both for persisting and for merging. -/
theorem claim_C8 {V ε : Type} (parse : String → V) (stringify : V → String) :
    (∀ (st : Store) (keys : List String)
        (fn : List String → Except ε (ResolverResult V)) (pre : String)
        (ttl : Option Nat) (l : List V),
        fn (uncachedOf parse st pre keys) = Except.ok (ResolverResult.arr l) →
        l.length = (uncachedOf parse st pre keys).length →
        manyCache parse stringify st keys fn pre ttl
          = manyCache parse stringify st keys
              (fun _ => Except.ok
                (ResolverResult.map ((uncachedOf parse st pre keys).zip l))) pre ttl) ∧
    (∀ (st : HStore) (key : String) (ids : List String)
        (fn : List String → Except ε (ResolverResult V)) (l : List V),
        fn (hashUncachedOf parse st key ids) = Except.ok (ResolverResult.arr l) →
        l.length = (hashUncachedOf parse st key ids).length →
        hashManyCache parse stringify st key ids fn
          = hashManyCache parse stringify st key ids
              (fun _ => Except.ok
                (ResolverResult.map ((hashUncachedOf parse st key ids).zip l)))) := by
  constructor
  · intro st keys fn pre ttl l hfn _
    rw [manyCache_eq, manyCache_eq]
    simp only [hfn]
    rfl
  · intro st key ids fn l hfn _
    rw [hashManyCache_eq, hashManyCache_eq]
    simp only [hfn]
    rfl

/-- Witness for C8: an aligned two-value array resolver behaves as the
corresponding id-keyed map resolver. -/
theorem claim_C8_witness :
    manyCache (ε := String) (fun s => s) (fun v => v) (fun _ => none) ["a", "b"]
        (fun _ => Except.ok (ResolverResult.arr ["1", "2"])) "p" none
      = manyCache (fun s => s) (fun v => v) (fun _ => none) ["a", "b"]
          (fun _ => Except.ok (ResolverResult.map [("a", "1"), ("b", "2")])) "p" none :=
  (claim_C8 (fun s => s) (fun v => v)).1 (fun _ => none) ["a", "b"] _ "p" none
    ["1", "2"] rfl rfl

/-- C1 counterexample: when the body of `acquire` raises and the
compensating `-amount` increment itself fails (here: the second store
command errors, e.g. a dropped connection), the decrement's error — not
the body's original error — propagates to the caller; nothing is
swallowed.  The claim's "re-raises the body's original error unchanged
… a failure of the compensating decrement is swallowed" is false on this
input. -/
theorem claim_C1_cex :
    (acquire (ε := String) (α := Unit) ⟨fun _ => 0, [none, some "conn reset"]⟩
        "k" 2 (fun _ => Except.error "body failed")).fst
      = Except.error "conn reset" ∧
    (Except.error "conn reset" : Except String Unit) ≠ Except.error "body failed" := by
  refine ⟨rfl, fun h => absurd (Except.error.inj h) (by decide)⟩

/-- C1 amended: if the body raises `e`, `acquire`/`hashAcquire` issue a
compensating `-amount` increment of the same key (or hash field); when
that decrement succeeds, the counter is restored to its pre-call value
and the original error `e` is re-raised unchanged; when the decrement
itself fails with `e2`, `e2` propagates to the caller in place of `e`. -/
theorem claim_C1_amended {ε α : Type} :
    (∀ (s : CStore ε) (key : String) (amount : Int) (fn : Int → Except ε α)
        (e : ε) (rest : List (Option ε)),
        s.faults = none :: rest →
        fn (s.val key + amount) = Except.error e →
        (rest.headD none = none →
            (acquire s key amount fn).fst = Except.error e ∧
            (acquire s key amount fn).snd.val key = s.val key) ∧
        (∀ e2, rest.head? = some (some e2) →
            (acquire s key amount fn).fst = Except.error e2)) ∧
    (∀ (s : HCStore ε) (key field : String) (amount : Int)
        (fn : Int → Except ε α) (e : ε) (rest : List (Option ε)),
        s.faults = none :: rest →
        fn (s.val key field + amount) = Except.error e →
        (rest.headD none = none →
            (hashAcquire s key field amount fn).fst = Except.error e ∧
            (hashAcquire s key field amount fn).snd.val key field
              = s.val key field) ∧
        (∀ e2, rest.head? = some (some e2) →
            (hashAcquire s key field amount fn).fst = Except.error e2)) := by
  constructor
  · intro s key amount fn e rest hf hfn
    constructor
    · intro hd
      cases rest with
      | nil =>
        simp [acquire, cIncrby, hf, hfn, add_neg_cancel_right]
      | cons f0 rest' =>
        cases f0 with
        | none =>
          simp [acquire, cIncrby, hf, hfn, add_neg_cancel_right]
        | some e2 => simp [List.headD] at hd
    · intro e2 hd
      cases rest with
      | nil => simp at hd
      | cons f0 rest' =>
        simp only [List.head?_cons, Option.some.injEq] at hd
        subst hd
        simp only [acquire, cIncrby, hf, hfn]
  · intro s key field amount fn e rest hf hfn
    constructor
    · intro hd
      cases rest with
      | nil =>
        simp [hashAcquire, hIncrby, hf, hfn, add_neg_cancel_right]
      | cons f0 rest' =>
        cases f0 with
        | none =>
          simp [hashAcquire, hIncrby, hf, hfn, add_neg_cancel_right]
        | some e2 => simp [List.headD] at hd
    · intro e2 hd
      cases rest with
      | nil => simp at hd
      | cons f0 rest' =>
        simp only [List.head?_cons, Option.some.injEq] at hd
        subst hd
        simp only [hashAcquire, hIncrby, hf, hfn]

/-- Witness for the amended C1: with a fault-free decrement the body's
error re-raises and the counter returns to its pre-call value; with a
faulting decrement the fault surfaces (hash variant). -/
theorem claim_C1_witness :
    ((acquire (ε := String) (α := Unit) ⟨fun _ => 5, [none]⟩ "k" 2
        (fun _ => Except.error "body failed")).fst = Except.error "body failed" ∧
      (acquire (ε := String) (α := Unit) ⟨fun _ => 5, [none]⟩ "k" 2
        (fun _ => Except.error "body failed")).snd.val "k" = 5) ∧
    (hashAcquire (ε := String) (α := Unit) ⟨fun _ _ => 1, [none, some "oops"]⟩
        "h" "f" 3 (fun _ => Except.error "bad")).fst = Except.error "oops" :=
  ⟨(claim_C1_amended.1 ⟨fun _ => 5, [none]⟩ "k" 2 _ "body failed" [] rfl rfl).1 rfl,
   (claim_C1_amended.2 ⟨fun _ _ => 1, [none, some "oops"]⟩ "h" "f" 3 _ "bad"
      [some "oops"] rfl rfl).2 "oops" rfl⟩

theorem subFrom_append (p t : String) : subFrom p.length (p ++ t) = t := by
  show String.mk ((p ++ t).data.drop p.length) = t
  have h1 : (p ++ t).data = p.data ++ t.data := rfl
  have h2 : p.length = p.data.length := rfl
  rw [h1, h2, List.drop_left]

theorem delFold_apply (pre : String) :
    ∀ (b : List String) (st : Store) (q : String),
      b.foldl (delKey pre) st q
        = if ∃ x ∈ b, q = pre ++ x then none else st q := by
  intro b
  induction b with
  | nil => intro st q; simp
  | cons k b ih =>
    intro st q
    rw [List.foldl_cons, ih]
    by_cases h2 : q = pre ++ k
    · have hc : ∃ x ∈ k :: b, q = pre ++ x := ⟨k, List.mem_cons_self _ _, h2⟩
      by_cases h1 : ∃ x ∈ b, q = pre ++ x
      · rw [if_pos h1, if_pos hc]
      · rw [if_neg h1, if_pos hc]
        simp [delKey, h2]
    · by_cases h1 : ∃ x ∈ b, q = pre ++ x
      · rcases h1 with ⟨x, hx, hqx⟩
        rw [if_pos ⟨x, hx, hqx⟩, if_pos ⟨x, List.mem_cons_of_mem _ hx, hqx⟩]
      · rw [if_neg h1, if_neg ?hc]
        case hc =>
          rintro ⟨x, hx, hqx⟩
          rcases List.mem_cons.mp hx with h | h
          · exact h2 (by rw [hqx, h])
          · exact h1 ⟨x, h, hqx⟩
        simp [delKey, h2]

theorem applyBatches_apply (pre : String) :
    ∀ (bs : List (List String)) (st : Store) (q : String),
      applyBatches pre st bs q
        = if ∃ x ∈ bs.flatten, q = pre ++ x then none else st q := by
  intro bs
  induction bs with
  | nil => intro st q; simp [applyBatches]
  | cons b bs ih =>
    intro st q
    show applyBatches pre (b.foldl (delKey pre) st) bs q = _
    rw [ih, delFold_apply, List.flatten_cons]
    by_cases h1 : ∃ x ∈ bs.flatten, q = pre ++ x
    · rcases h1 with ⟨x, hx, hqx⟩
      rw [if_pos ⟨x, hx, hqx⟩, if_pos ⟨x, List.mem_append_right _ hx, hqx⟩]
    · rw [if_neg h1]
      by_cases h2 : ∃ x ∈ b, q = pre ++ x
      · rcases h2 with ⟨x, hx, hqx⟩
        rw [if_pos ⟨x, hx, hqx⟩, if_pos ⟨x, List.mem_append_left _ hx, hqx⟩]
      · rw [if_neg h2, if_neg ?hc]
        case hc =>
          rintro ⟨x, hx, hqx⟩
          rcases List.mem_append.mp hx with h | h
          · exact h2 ⟨x, h, hqx⟩
          · exact h1 ⟨x, h, hqx⟩

theorem foldl_pushPage_join (plen batch : Nat) :
    ∀ (pages : List (List String)) (s : PipeState),
      (pages.foldl (pushPage plen batch) s).jobs.flatten
          ++ (pages.foldl (pushPage plen batch) s).pipe
        = s.jobs.flatten ++ s.pipe ++ pages.flatten.map (subFrom plen) := by
  intro pages
  induction pages with
  | nil => intro s; simp
  | cons page pages ih =>
    intro s
    rw [List.foldl_cons, ih]
    unfold pushPage
    split
    · simp [List.append_assoc]
    · simp [List.append_assoc]

theorem deleteBatches_join (pre : String) (batch : Nat)
    (pages : List (List String)) :
    (deleteBatches pre batch pages).flatten = pages.flatten.map (subFrom pre.length) := by
  have h := foldl_pushPage_join pre.length batch pages ⟨[], []⟩
  simp only [List.flatten_nil, List.nil_append] at h
  simp [deleteBatches, h]

theorem foldl_pushPage_jobs (plen batch : Nat) :
    ∀ (pages : List (List String)) (s : PipeState),
      (∀ j ∈ s.jobs, batch ≤ j.length) →
      ∀ j ∈ (pages.foldl (pushPage plen batch) s).jobs, batch ≤ j.length := by
  intro pages
  induction pages with
  | nil => intro s hs; exact hs
  | cons page pages ih =>
    intro s hs
    refine ih _ fun j hj => ?_
    unfold pushPage at hj
    split at hj
    · rename_i hcond
      simp only [List.mem_append, List.mem_singleton] at hj
      rcases hj with h | h
      · exact hs j h
      · rw [h]; exact hcond
    · exact hs j hj

theorem foldl_pushPage_pipe (plen batch : Nat) (hb : 0 < batch) :
    ∀ (pages : List (List String)) (s : PipeState),
      s.pipe.length < batch →
      (pages.foldl (pushPage plen batch) s).pipe.length < batch := by
  intro pages
  induction pages with
  | nil => intro s hs; exact hs
  | cons page pages ih =>
    intro s hs
    refine ih _ ?_
    unfold pushPage
    split
    · simpa using hb
    · rename_i hcond
      simpa using Nat.lt_of_not_le hcond

/-- C9 counterexample: with `batchSize = 2` and a single scan page of three
keys, `deletePattern` issues one grouped delete of three keys (the
`pipeline.length >= batch` check only runs after a whole page), so the
claim's "batches of batchSize each" is false; the trailing pipeline is
fired even when empty. -/
theorem claim_C9_cex :
    deleteBatches "" 2 [["a", "b", "c"]] = [["a", "b", "c"], []] ∧
    ∃ b ∈ deleteBatches "" 2 [["a", "b", "c"]], b.length ≠ 2 := by
  constructor
  · rfl
  · exact ⟨["a", "b", "c"], by decide, by decide⟩

/-- C9 amended: given scan pages holding exactly the present store keys of
the form `prefix ++ name` with `name` matching the pattern, `deletePattern`
deletes every key whose unprefixed name matches and no other key (the
prefix is stripped from each scanned key before the store-level delete,
which re-applies it); the fired grouped deletes together contain exactly
the stripped scanned keys in scan order; each non-final batch is flushed
only once it holds at least `batchSize` deletions — at a page boundary, so
it may exceed `batchSize` — and the final (possibly partial or empty)
batch is always fired. -/
theorem claim_C9_amended (pre : String) (batch : Nat) (st : Store)
    (pages : List (List String)) (gmatch : String → Bool)
    (hb : 0 < batch)
    (hscan : ∀ k, k ∈ pages.flatten
        ↔ ((st k).isSome ∧ ∃ t, k = pre ++ t ∧ gmatch t = true)) :
    (∀ t, gmatch t = true → (deletePattern pre batch st pages).fst (pre ++ t) = none) ∧
    (∀ q, (∀ t, q = pre ++ t → gmatch t = false) →
        (deletePattern pre batch st pages).fst q = st q) ∧
    (deletePattern pre batch st pages).snd.flatten
        = pages.flatten.map (subFrom pre.length) ∧
    (∀ b ∈ (deletePattern pre batch st pages).snd.dropLast, batch ≤ b.length) ∧
    ((deletePattern pre batch st pages).snd.getLast?.getD []).length < batch := by
  have hjoin : (deleteBatches pre batch pages).flatten
      = pages.flatten.map (subFrom pre.length) := deleteBatches_join pre batch pages
  refine ⟨?_, ?_, hjoin, ?_, ?_⟩
  · intro t hm
    show applyBatches pre st (deleteBatches pre batch pages) (pre ++ t) = none
    rw [applyBatches_apply, hjoin]
    cases hsome : st (pre ++ t) with
    | none =>
      by_cases hany : ∃ x ∈ pages.flatten.map (subFrom pre.length), pre ++ t = pre ++ x
      · rw [if_pos hany]
      · rw [if_neg hany]
    | some e =>
      have hmem : pre ++ t ∈ pages.flatten :=
        (hscan (pre ++ t)).mpr ⟨by simp [hsome], t, rfl, hm⟩
      refine if_pos ⟨subFrom pre.length (pre ++ t), List.mem_map_of_mem _ hmem, ?_⟩
      rw [subFrom_append]
  · intro q hq
    show applyBatches pre st (deleteBatches pre batch pages) q = st q
    rw [applyBatches_apply, hjoin]
    refine if_neg ?_
    rintro ⟨x, hx, hcontra⟩
    rcases List.mem_map.mp hx with ⟨k, hk, rfl⟩
    rcases ((hscan k).mp hk).2 with ⟨t, rfl, hmt⟩
    rw [subFrom_append] at hcontra
    rw [hq t hcontra] at hmt
    cases hmt
  · show ∀ b ∈ (deleteBatches pre batch pages).dropLast, batch ≤ b.length
    have hjobs := foldl_pushPage_jobs pre.length batch pages ⟨[], []⟩ (by simp)
    intro b hbmem
    simp only [deleteBatches, List.dropLast_concat] at hbmem
    exact hjobs b hbmem
  · show ((deleteBatches pre batch pages).getLast?.getD []).length < batch
    have hpipe := foldl_pushPage_pipe pre.length batch hb pages ⟨[], []⟩ (by simpa using hb)
    simp only [deleteBatches, List.getLast?_concat]
    exact hpipe

/-- Witness for the amended C9: one page holding the one matching key under
prefix `p:`; the key is deleted and the single fired batch holds the
stripped key. -/
theorem claim_C9_witness :
    ((deletePattern "p:" 1 (fun k => if k = "p:a" then some ⟨"1", none⟩ else none)
        [["p:a"]]).fst "p:a" = none) ∧
    ((deletePattern "p:" 1 (fun k => if k = "p:a" then some ⟨"1", none⟩ else none)
        [["p:a"]]).snd.flatten = [["p:a"]].flatten.map (subFrom "p:".length)) := by
  have hscan : ∀ k, k ∈ [["p:a"]].flatten
      ↔ (((fun k => if k = "p:a" then some (⟨"1", none⟩ : Entry) else none) k).isSome
          ∧ ∃ t, k = "p:" ++ t ∧ (fun t => decide (t = "a")) t = true) := by
    intro k
    constructor
    · intro hk
      have hke : k = "p:a" := by simpa using hk
      subst hke
      exact ⟨by decide, "a", by decide, by decide⟩
    · rintro ⟨hsome, t, rfl, hmt⟩
      have ht : t = "a" := by simpa using hmt
      subst ht
      decide
  have h := claim_C9_amended "p:" 1
    (fun k => if k = "p:a" then some ⟨"1", none⟩ else none) [["p:a"]]
    (fun t => decide (t = "a")) (by decide) hscan
  exact ⟨h.1 "a" (by decide), h.2.2.1⟩

end IoredisCache
